import Mathlib

/-!
# Verification of the d2s attribute-block codec

A shallow embedding of the bit-packed attribute codec of `src/stats.rs` and
the save-file container of `src/main.rs`. Byte buffers (`Vec<u8>`, `&[u8]`)
are `List Nat` with each element intended `< 256`; the logical bit sequence
(a Rust `String` of `'0'`/`'1'` characters) is `List Bool` with `true` for
`'1'`. Rust functions that can abort (index out of bounds, usize underflow,
integer parse overflow, an explicit abort) are modelled with `Option` or
`Except`, where `none` / `.error` marks the abort.
-/

namespace D2S

/-! ### Bit-sequence adapter (`Stats::load_binary_stream` / `Stats::save_binary_stream`) -/

/-- The `w`-character binary rendering of `v`, most-significant bit first,
as produced by `format!("{:0w$b}", v)` for `v < 2^w` (truncates to `v mod 2^w`
otherwise; no call site in the source exceeds the width here). -/
def natBits : Nat → Nat → List Bool
  | 0, _ => []
  | w + 1, v => natBits w (v / 2) ++ [decide (v % 2 = 1)]

/-- Value of a most-significant-bit-first bit string, as computed by
`uN::from_str_radix(s, 2)` digit by digit. -/
def bitsToNat (l : List Bool) : Nat :=
  l.foldl (fun acc b => 2 * acc + (if b then 1 else 0)) 0

/-- `Stats::load_binary_stream`: iterate the byte range from its highest
address down to its lowest, appending each byte's 8 bits MSB-first. -/
def load_binary_stream : List Nat → List Bool
  | [] => []
  | b :: rest => load_binary_stream rest ++ natBits 8 b

/-- One pass of the `while` loop in `Stats::save_binary_stream`: consume the
bit sequence in 8-bit groups, writing group `k` to byte address
`data.len() - k - 1`.  `none` models the aborts: slicing an 8-character group
past the end of the string, and the byte-address underflow once `k` reaches
`data.len()`. -/
def save_loop (data : List Nat) (k : Nat) : List Bool → Option (List Nat)
  | [] => some data
  | b0 :: b1 :: b2 :: b3 :: b4 :: b5 :: b6 :: b7 :: rest =>
    if k < data.length then
      save_loop (data.set (data.length - k - 1) (bitsToNat [b0, b1, b2, b3, b4, b5, b6, b7]))
        (k + 1) rest
    else none
  | _ => none

/-- `Stats::save_binary_stream` (the in-place mutation of `data` is modelled
by returning the updated buffer). -/
def save_binary_stream (data : List Nat) (binary_stream : List Bool) : Option (List Nat) :=
  save_loop data 0 binary_stream

/-- The byte values of a bit sequence read in 8-bit groups from its start;
used to describe the buffer `save_binary_stream` produces. -/
def chunkBytes : List Bool → List Nat
  | [] => []
  | b0 :: b1 :: b2 :: b3 :: b4 :: b5 :: b6 :: b7 :: rest =>
    bitsToNat [b0, b1, b2, b3, b4, b5, b6, b7] :: chunkBytes rest
  | _ => []

/-! ### Attribute catalog (`StatsKind`, `StatsInfo`, `Stats::stats_info`) -/

inductive StatsKind
  | Strength | Energy | Dexterity | Vitality | NewPoints | NewSkills
  | HitPoints | MaxHealth | Mana | MaxMana | Stamina | MaxStamina
  | Level | Experience | Gold | GoldStash
deriving DecidableEq, Repr

/-- The `#[repr(u16)]` discriminant of a `StatsKind` (`ToPrimitive::to_u16`). -/
def statsKindId : StatsKind → Nat
  | .Strength => 0
  | .Energy => 1
  | .Dexterity => 2
  | .Vitality => 3
  | .NewPoints => 4
  | .NewSkills => 5
  | .HitPoints => 6
  | .MaxHealth => 7
  | .Mana => 8
  | .MaxMana => 9
  | .Stamina => 10
  | .MaxStamina => 11
  | .Level => 12
  | .Experience => 13
  | .Gold => 14
  | .GoldStash => 15

/-- `FromPrimitive::from_u16` for `StatsKind`. -/
def kindOfId : Nat → Option StatsKind
  | 0 => some .Strength
  | 1 => some .Energy
  | 2 => some .Dexterity
  | 3 => some .Vitality
  | 4 => some .NewPoints
  | 5 => some .NewSkills
  | 6 => some .HitPoints
  | 7 => some .MaxHealth
  | 8 => some .Mana
  | 9 => some .MaxMana
  | 10 => some .Stamina
  | 11 => some .MaxStamina
  | 12 => some .Level
  | 13 => some .Experience
  | 14 => some .Gold
  | 15 => some .GoldStash
  | _ => none

/-- `StatsInfo`: one field record — kind, fixed bit-width (`size`), bit-offset
into the logical bit sequence (`0` means "not present"), current value. -/
structure StatsInfo where
  kind : StatsKind
  size : Nat
  offset : Nat
  value : Nat
deriving DecidableEq, Repr

/-- `Stats::stats_info()`: the fresh catalog, every record at
`offset = 0, value = 0`. -/
def stats_info : List StatsInfo :=
  [⟨.Strength, 10, 0, 0⟩, ⟨.Energy, 10, 0, 0⟩, ⟨.Dexterity, 10, 0, 0⟩,
   ⟨.Vitality, 10, 0, 0⟩, ⟨.NewPoints, 10, 0, 0⟩, ⟨.NewSkills, 8, 0, 0⟩,
   ⟨.HitPoints, 21, 0, 0⟩, ⟨.MaxHealth, 21, 0, 0⟩, ⟨.Mana, 21, 0, 0⟩,
   ⟨.MaxMana, 21, 0, 0⟩, ⟨.Stamina, 21, 0, 0⟩, ⟨.MaxStamina, 21, 0, 0⟩,
   ⟨.Level, 7, 0, 0⟩, ⟨.Experience, 32, 0, 0⟩, ⟨.Gold, 25, 0, 0⟩,
   ⟨.GoldStash, 25, 0, 0⟩]

/-! ### Parsing (`Stats::parse_stats` / `Stats::load`) -/

/-- The aborts `Stats::parse_stats` can hit: the explicit abort on an
unrecognized 9-bit tag id, the usize underflow of `offset -= s.size`, and
`u32::from_str_radix` overflowing on a value slice wider than 32 bits. -/
inductive PErr
  | unknownId (id : Nat)
  | offsetUnderflow
  | valueOverflow
deriving DecidableEq, Repr

/-- The string slice `&binary_stream[a..b]`.  In every reachable call the
bounds satisfy `a ≤ b ≤ stream.length`, where Rust's slicing is total. -/
def streamSlice (s : List Bool) (a b : Nat) : List Bool := (s.drop a).take (b - a)

/-- The unsigned value of the `w` bits at `[a, a + w)` of the bit sequence:
`uN::from_str_radix(&binary_stream[a..a + w], 2)`. -/
def bitsAt (stream : List Bool) (a w : Nat) : Nat :=
  bitsToNat (streamSlice stream a (a + w))

/-- The mutation done by the inner `for` loop of `parse_stats`: the first
record whose kind has discriminant `id` receives the parsed value and
bit-offset. -/
def updateFirst (id offset2 value : Nat) : List StatsInfo → List StatsInfo
  | [] => []
  | r :: rest =>
    if statsKindId r.kind = id then { r with value := value, offset := offset2 } :: rest
    else r :: updateFirst id offset2 value rest

/-- The labelled `'main: while offset >= id_size` loop of `Stats::parse_stats`.
Each pass reads the 9 bits before the cursor as a tag id (the Rust locals
`offset1 = offset - 9`, `id`, `offset2 = offset1 - s.size` and `value` are
inlined here), looks the id up, and on a match consumes the matched record's
`size` bits as its value, recording value and offset; the loop returns right
after a `GoldStash` field, and breaks (returning normally) if the id maps to
a kind absent from `stats`. -/
def parseLoop (stream : List Bool) (stats : List StatsInfo) (offset : Nat) :
    Except PErr (List StatsInfo) :=
  if h9 : 9 ≤ offset then
    match kindOfId (bitsAt stream (offset - 9) 9) with
    | none => .error (.unknownId (bitsAt stream (offset - 9) 9))
    | some kind =>
      match stats.find? (fun r => statsKindId r.kind == bitsAt stream (offset - 9) 9) with
      | none => .ok stats
      | some r =>
        if r.size ≤ offset - 9 then
          if bitsAt stream (offset - 9 - r.size) r.size < 2 ^ 32 then
            if kind = StatsKind.GoldStash then
              .ok (updateFirst (bitsAt stream (offset - 9) 9) (offset - 9 - r.size)
                (bitsAt stream (offset - 9 - r.size) r.size) stats)
            else
              parseLoop stream
                (updateFirst (bitsAt stream (offset - 9) 9) (offset - 9 - r.size)
                  (bitsAt stream (offset - 9 - r.size) r.size) stats)
                (offset - 9 - r.size)
          else .error .valueOverflow
        else .error .offsetUnderflow
  else .ok stats
termination_by offset
decreasing_by omega

/-- `Stats::parse_stats` entered with the cursor at the tail of the sequence. -/
def parse_stats (data : List Nat) (stats : List StatsInfo) : Except PErr (List StatsInfo) :=
  parseLoop (load_binary_stream data) stats (load_binary_stream data).length

/-- `Stats::load`: parse the block against a fresh catalog. -/
def Stats.load (data : List Nat) : Except PErr (List StatsInfo) :=
  parse_stats data stats_info

/-! ### Write-back (`Stats::save`, `Stats::set`) -/

/-- `format!("{:0width$b}", v)`: the minimal binary rendering of `v`,
left-padded with zeros to at least `width` characters (longer than `width`
when `v` needs more than `width` bits). -/
def binDigits (v : Nat) : List Bool := natBits (Nat.log2 v + 1) v

/-- See `binDigits`. -/
def format_binary (width v : Nat) : List Bool :=
  List.replicate (width - (binDigits v).length) false ++ binDigits v

/-- `String::replace_range(a..b, repl)`: `none` models the abort when the
range is out of bounds. -/
def replace_range (s : List Bool) (a b : Nat) (repl : List Bool) : Option (List Bool) :=
  if a ≤ b ∧ b ≤ s.length then some (s.take a ++ repl ++ s.drop b) else none

/-- The `for` loop of `Stats::save`: every record with `offset > 0` has its
value rendered at its width and spliced over `[offset, offset + size)`. -/
def applyStats : List StatsInfo → List Bool → Option (List Bool)
  | [], stream => some stream
  | r :: rest, stream =>
    if 0 < r.offset then
      match replace_range stream r.offset (r.offset + r.size) (format_binary r.size r.value) with
      | some stream' => applyStats rest stream'
      | none => none
    else applyStats rest stream

/-- `Stats::save`: decode the block, splice every present record, re-encode. -/
def Stats.save (stats : List StatsInfo) (data : List Nat) : Option (List Nat) :=
  match applyStats stats (load_binary_stream data) with
  | some stream => save_binary_stream data stream
  | none => none

/-- `Stats::set`: store `value` on the first record of kind `kind` that is
present (`offset ≠ 0`); `none` models the explicit abort when none matches. -/
def Stats.set : List StatsInfo → StatsKind → Nat → Option (List StatsInfo)
  | [], _, _ => none
  | r :: rest, kind, value =>
    if r.kind = kind ∧ r.offset ≠ 0 then some ({ r with value := value } :: rest)
    else
      match Stats.set rest kind value with
      | some rest' => some (r :: rest')
      | none => none

/-! ### Save-file container (`main.rs`) -/

def FileOffset.Checksum : Nat := 12

def FileOffset.CharacterStats : Nat := 767

/-- `u32::rotate_left(1)` for an accumulator `< 2^32`. -/
def rotl32 (x : Nat) : Nat := (2 * x + x / 2 ^ 31) % 2 ^ 32

/-- `D2SaveFile::set`: write `value` little-endian over the 4 bytes at
`offset`; `none` models the index aborts on a buffer shorter than
`offset + 4`. -/
def D2SaveFile.set (data : List Nat) (offset value : Nat) : Option (List Nat) :=
  if offset + 3 < data.length then
    some ((((data.set offset (value % 2 ^ 8)).set (offset + 1) (value / 2 ^ 8 % 2 ^ 8)).set
        (offset + 2) (value / 2 ^ 16 % 2 ^ 8)).set (offset + 3) (value / 2 ^ 24 % 2 ^ 8))
  else none

/-- `D2SaveFile::file_checksum`: clone the buffer, zero the 4-byte checksum
field at offset 12, seed the 32-bit accumulator with the first byte, then for
each later byte rotate the accumulator left one bit and add the byte
(wrapping `u32` arithmetic). -/
def D2SaveFile.file_checksum (data : List Nat) : Option Nat :=
  match D2SaveFile.set data FileOffset.Checksum 0 with
  | none => none
  | some d =>
    match d with
    | [] => some 0
    | first :: tail => some (tail.foldl (fun acc v => (rotl32 acc + v) % 2 ^ 32) first)

/-- The checksum algorithm as the specification words it (the comparison
definition for the C7 refinement): over a copy of the buffer with the four
checksum bytes at offset 12 zeroed, seed the accumulator with the first byte
unrotated and fold every later byte in address order with
rotate-left-1-then-add, modulo `2^32`. -/
def spec_checksum (data : List Nat) : Nat :=
  match data.take 12 ++ [0, 0, 0, 0] ++ data.drop 16 with
  | [] => 0
  | first :: tail =>
    tail.foldl (fun acc v => ((2 * acc + acc / 2 ^ 31) % 2 ^ 32 + v) % 2 ^ 32) first

/-- The two-byte section marker `0x69 0x66` read at offset `i`. -/
def markerAt (data : List Nat) (i : Nat) : Prop :=
  data.getD i 0 = 0x69 ∧ data.getD (i + 1) 0 = 0x66

instance markerAt.instDecidable (data : List Nat) (i : Nat) : Decidable (markerAt data i) :=
  inferInstanceAs (Decidable (data.getD i 0 = 0x69 ∧ data.getD (i + 1) 0 = 0x66))

/-- The `while offset <= data.len() - 2` scan of `D2SaveFile::skills_offset`,
entered with `data.len() ≥ 2` (see `D2SaveFile.skills_offset` for the
underflow).  Both byte reads are modelled as partial; `.error` marks an
out-of-bounds index abort. -/
def skillsLoop (data : List Nat) (offset : Nat) : Except Unit (Option Nat) :=
  if h : offset + 2 ≤ data.length then
    match data[offset]?, data[offset + 1]? with
    | some a, some b =>
      if a = 0x69 ∧ b = 0x66 then .ok (some offset) else skillsLoop data (offset + 1)
    | _, _ => .error ()
  else .ok none
termination_by data.length - offset
decreasing_by omega

/-- `D2SaveFile::skills_offset`: scan forward from offset 767 for the marker.
When `data.len() < 2` the usize subtraction `data.len() - 2` underflows and
the scan indexes out of bounds, so the whole call aborts (`.error`). -/
def D2SaveFile.skills_offset (data : List Nat) : Except Unit (Option Nat) :=
  if data.length < 2 then .error ()
  else skillsLoop data FileOffset.CharacterStats

/-- How `D2SaveFile::load` can fail after the file is read: `aborted` models
a process abort (locator underflow, parse abort), `formatError` the graceful
`Err("Skills section not found, invalid file format?")`. -/
inductive LoadError
  | aborted
  | formatError
deriving DecidableEq, Repr

/-- The byte slice `&data[a..b]`. -/
def byteSlice (l : List Nat) (a b : Nat) : List Nat := (l.drop a).take (b - a)

/-- `D2SaveFile::load` after the raw bytes are read: locate the skills
section, then parse the attribute block `data[767..skills_offset]`. -/
def D2SaveFile.load (data : List Nat) : Except LoadError (List StatsInfo × Nat) :=
  match D2SaveFile.skills_offset data with
  | .error _ => .error .aborted
  | .ok none => .error .formatError
  | .ok (some so) =>
    match Stats.load (byteSlice data FileOffset.CharacterStats so) with
    | .error _ => .error .aborted
    | .ok stats => .ok (stats, so)

/-- Well-formedness of one field record with respect to the logical bit
sequence it was parsed from: if the record is marked present, its span lies
inside the sequence, the span holds exactly the width-`size` rendering of its
value, and the value fits its width. -/
def GoodRec (stream : List Bool) (r : StatsInfo) : Prop :=
  0 < r.offset →
    r.offset + r.size ≤ stream.length ∧
    streamSlice stream r.offset (r.offset + r.size) = natBits r.size r.value ∧
    r.value < 2 ^ r.size

/-! ## Theorems -/

/-! ### Basic facts about the bit encoding -/

theorem natBits_length (w v : Nat) : (natBits w v).length = w := by
  induction w generalizing v with
  | zero => rfl
  | succ w ih => simp [natBits, ih]

theorem bitsToNat_foldl (l : List Bool) (acc : Nat) :
    l.foldl (fun acc b => 2 * acc + (if b then 1 else 0)) acc =
      acc * 2 ^ l.length + bitsToNat l := by
  induction l generalizing acc with
  | nil => simp [bitsToNat]
  | cons a l ih =>
    have hb : bitsToNat (a :: l) =
        (2 * 0 + (if a then 1 else 0)) * 2 ^ l.length + bitsToNat l := by
      simp only [bitsToNat, List.foldl_cons]
      exact ih _
    simp only [List.foldl_cons, List.length_cons, hb, ih]
    ring

theorem bitsToNat_append (l₁ l₂ : List Bool) :
    bitsToNat (l₁ ++ l₂) = bitsToNat l₁ * 2 ^ l₂.length + bitsToNat l₂ := by
  simp only [bitsToNat, List.foldl_append]
  rw [bitsToNat_foldl]
  rfl

theorem bitsToNat_concat (l : List Bool) (b : Bool) :
    bitsToNat (l ++ [b]) = 2 * bitsToNat l + (if b then 1 else 0) := by
  rw [bitsToNat_append]
  have hb : bitsToNat [b] = (if b then 1 else 0) := by cases b <;> rfl
  rw [hb]
  simp only [List.length_cons, List.length_nil, pow_one]
  ring

theorem bitsToNat_lt (l : List Bool) : bitsToNat l < 2 ^ l.length := by
  induction l using List.reverseRecOn with
  | nil => simp [bitsToNat]
  | append_singleton l b ih =>
    rw [bitsToNat_concat]
    have hb : (if b = true then 1 else 0) ≤ 1 := by cases b <;> simp
    simp only [List.length_append, List.length_cons, List.length_nil, pow_succ]
    omega

theorem mod_two_pow_succ (w v : Nat) : v % 2 ^ (w + 1) = 2 * (v / 2 % 2 ^ w) + v % 2 := by
  have hpos : 0 < 2 ^ w := pow_pos (by omega) w
  have hp : 2 ^ (w + 1) = 2 ^ w * 2 := pow_succ 2 w
  have h1 := Nat.div_add_mod v 2
  have h2 := Nat.div_add_mod (v / 2) (2 ^ w)
  have ha : v / 2 % 2 ^ w < 2 ^ w := Nat.mod_lt _ hpos
  have hlt : 2 * (v / 2 % 2 ^ w) + v % 2 < 2 ^ (w + 1) := by
    have hb : v % 2 < 2 := Nat.mod_lt _ (by omega)
    rw [hp]
    omega
  have key : v = 2 ^ (w + 1) * (v / 2 / 2 ^ w) + (2 * (v / 2 % 2 ^ w) + v % 2) := by
    conv_lhs => rw [← h1, ← h2]
    rw [hp]
    ring
  conv_lhs => rw [key]
  rw [Nat.mul_add_mod, Nat.mod_eq_of_lt hlt]

theorem bitsToNat_natBits (w v : Nat) : bitsToNat (natBits w v) = v % 2 ^ w := by
  induction w generalizing v with
  | zero => simp [natBits, bitsToNat, Nat.mod_one]
  | succ w ih =>
    rw [natBits, bitsToNat_concat, ih, mod_two_pow_succ]
    rcases Nat.mod_two_eq_zero_or_one v with h | h <;> simp [h]

theorem natBits_bitsToNat (l : List Bool) : natBits l.length (bitsToNat l) = l := by
  induction l using List.reverseRecOn with
  | nil => rfl
  | append_singleton l b ih =>
    rw [bitsToNat_concat]
    simp only [List.length_append, List.length_cons, List.length_nil]
    rw [natBits]
    have hc : (if b = true then 1 else 0) < 2 := by cases b <;> simp
    have h1 : (2 * bitsToNat l + (if b then 1 else 0)) / 2 = bitsToNat l := by omega
    have h2 : (2 * bitsToNat l + (if b then 1 else 0)) % 2 = if b then 1 else 0 := by omega
    rw [h1, h2, ih]
    cases b <;> simp

/-! ### The adapter's encode direction -/

theorem load_binary_stream_append (l₁ l₂ : List Nat) :
    load_binary_stream (l₁ ++ l₂) = load_binary_stream l₂ ++ load_binary_stream l₁ := by
  induction l₁ with
  | nil => simp [load_binary_stream]
  | cons b rest ih => simp [load_binary_stream, ih]

theorem load_binary_stream_length (l : List Nat) :
    (load_binary_stream l).length = 8 * l.length := by
  induction l with
  | nil => rfl
  | cons b rest ih =>
    simp only [load_binary_stream, List.length_append, natBits_length, List.length_cons, ih]
    ring

/-! ### The adapter's decode direction -/

theorem save_loop_chunk (d : List Nat) (k : Nat) (chunk rest : List Bool)
    (h : chunk.length = 8) :
    save_loop d k (chunk ++ rest) =
      if k < d.length then
        save_loop (d.set (d.length - k - 1) (bitsToNat chunk)) (k + 1) rest
      else none := by
  rcases chunk with _ | ⟨b0, chunk⟩ <;> simp at h
  rcases chunk with _ | ⟨b1, chunk⟩ <;> simp at h
  rcases chunk with _ | ⟨b2, chunk⟩ <;> simp at h
  rcases chunk with _ | ⟨b3, chunk⟩ <;> simp at h
  rcases chunk with _ | ⟨b4, chunk⟩ <;> simp at h
  rcases chunk with _ | ⟨b5, chunk⟩ <;> simp at h
  rcases chunk with _ | ⟨b6, chunk⟩ <;> simp at h
  rcases chunk with _ | ⟨b7, chunk⟩ <;> simp at h
  subst h
  rfl

theorem chunkBytes_chunk (chunk rest : List Bool) (h : chunk.length = 8) :
    chunkBytes (chunk ++ rest) = bitsToNat chunk :: chunkBytes rest := by
  rcases chunk with _ | ⟨b0, chunk⟩ <;> simp at h
  rcases chunk with _ | ⟨b1, chunk⟩ <;> simp at h
  rcases chunk with _ | ⟨b2, chunk⟩ <;> simp at h
  rcases chunk with _ | ⟨b3, chunk⟩ <;> simp at h
  rcases chunk with _ | ⟨b4, chunk⟩ <;> simp at h
  rcases chunk with _ | ⟨b5, chunk⟩ <;> simp at h
  rcases chunk with _ | ⟨b6, chunk⟩ <;> simp at h
  rcases chunk with _ | ⟨b7, chunk⟩ <;> simp at h
  subst h
  rfl

theorem set_getElem_self_eq {α : Type} (l : List α) (i : Nat) (h : i < l.length) :
    l.set i l[i] = l := by
  induction l generalizing i with
  | nil => rfl
  | cons a l ih =>
    cases i with
    | zero => rfl
    | succ i =>
      simp only [List.length_cons] at h
      simp only [List.getElem_cons_succ, List.set_cons_succ]
      rw [ih i (by omega)]

/-- Decoding the encoding of the `m` lowest-address bytes, with the write
cursor already past the other `k` bytes, writes every byte back unchanged. -/
theorem save_loop_load (d : List Nat) (hb : ∀ b ∈ d, b < 256) :
    ∀ m k, k + m = d.length →
      save_loop d k (load_binary_stream (d.take m)) = some d := by
  intro m
  induction m with
  | zero =>
    intro k _
    simp [load_binary_stream, save_loop]
  | succ m ih =>
    intro k hk
    have hm : m < d.length := by omega
    have htake : d.take (m + 1) = d.take m ++ [d[m]] := by
      rw [← List.take_concat_get d m hm]
      simp [List.concat_eq_append]
    rw [htake, load_binary_stream_append]
    have hone : load_binary_stream [d[m]] = natBits 8 d[m] := by
      simp [load_binary_stream]
    rw [hone, save_loop_chunk _ _ _ _ (natBits_length 8 _)]
    have hklt : k < d.length := by omega
    rw [if_pos hklt]
    have hidx : d.length - k - 1 = m := by omega
    have hbyte : bitsToNat (natBits 8 d[m]) = d[m] := by
      rw [bitsToNat_natBits]
      exact Nat.mod_eq_of_lt (hb _ (List.getElem_mem hm))
    rw [hidx, hbyte, set_getElem_self_eq d m hm]
    exact ih (k + 1) (by omega)

/-- C1: round-trip law of the bit-sequence adapter — for every byte range
(whose bit length `8 * n` is always a multiple of 8), decoding
(`Stats::save_binary_stream`) the bit sequence produced by encoding it
(`Stats::load_binary_stream`) into a buffer of the same length reproduces the
original bytes exactly. -/
theorem C1_bit_adapter_round_trip (data : List Nat) (hb : ∀ b ∈ data, b < 256) :
    save_binary_stream data (load_binary_stream data) = some data := by
  have h := save_loop_load data hb data.length 0 (by omega)
  rw [List.take_length] at h
  exact h

theorem C1_bit_adapter_round_trip_witness :
    save_binary_stream [18, 171] (load_binary_stream [18, 171]) = some [18, 171] :=
  C1_bit_adapter_round_trip [18, 171] (by decide)

theorem drop_set_cons {α : Type} (l : List α) (i : Nat) (v : α) (h : i < l.length) :
    (l.set i v).drop i = v :: l.drop (i + 1) := by
  rw [List.drop_set, if_neg (by omega), Nat.sub_self]
  rw [List.drop_eq_getElem_cons h]
  rfl

/-- What a successful `save_binary_stream` pass writes: group `j` of the bit
sequence lands at byte address `m - 1 - j`, every byte at address `≥ m`
(already behind the write cursor) is kept. -/
theorem save_loop_eq_chunks (m : Nat) :
    ∀ (stream : List Bool) (d : List Nat) (k : Nat),
      stream.length = 8 * m → k + m = d.length →
      save_loop d k stream = some ((chunkBytes stream).reverse ++ d.drop m) := by
  induction m with
  | zero =>
    intro stream d k hs _
    rw [List.length_eq_zero.mp hs]
    simp [save_loop, chunkBytes]
  | succ m ih =>
    intro stream d k hs hk
    have hlen8 : (stream.take 8).length = 8 := by
      rw [List.length_take]
      omega
    have hsplit := List.take_append_drop 8 stream
    rw [← hsplit, save_loop_chunk _ _ _ _ hlen8, chunkBytes_chunk _ _ hlen8]
    have hklt : k < d.length := by omega
    rw [if_pos hklt]
    have hidx : d.length - k - 1 = m := by omega
    rw [hidx]
    have hrest : (stream.drop 8).length = 8 * m := by
      rw [List.length_drop]
      omega
    have hset : (d.set m (bitsToNat (stream.take 8))).length = d.length := List.length_set ..
    rw [ih (stream.drop 8) _ (k + 1) hrest (by omega)]
    rw [drop_set_cons d m (bitsToNat (stream.take 8)) (by omega)]
    rw [List.reverse_cons, List.append_assoc]
    rfl

/-- Re-encoding the buffer a successful decode produced gives back the bit
sequence. -/
theorem load_chunkBytes (m : Nat) :
    ∀ stream : List Bool, stream.length = 8 * m →
      load_binary_stream (chunkBytes stream).reverse = stream := by
  induction m with
  | zero =>
    intro stream hs
    rw [List.length_eq_zero.mp hs]
    rfl
  | succ m ih =>
    intro stream hs
    have hlen8 : (stream.take 8).length = 8 := by
      rw [List.length_take]
      omega
    have hsplit := List.take_append_drop 8 stream
    rw [← hsplit, chunkBytes_chunk _ _ hlen8, List.reverse_cons, load_binary_stream_append]
    have hrest : (stream.drop 8).length = 8 * m := by
      rw [List.length_drop]
      omega
    rw [ih _ hrest]
    have hone : load_binary_stream [bitsToNat (stream.take 8)] =
        natBits 8 (bitsToNat (stream.take 8)) := by
      simp [load_binary_stream]
    have h8 : natBits 8 (bitsToNat (stream.take 8)) = stream.take 8 := by
      have hnb := natBits_bitsToNat (stream.take 8)
      rwa [hlen8] at hnb
    rw [hone, h8]

/-- A successful `save_binary_stream` pass consumed at most the remaining
bytes' worth of bits. -/
theorem save_loop_some_le (n : Nat) :
    ∀ (s : List Bool), s.length ≤ n → ∀ (d : List Nat) (k : Nat) (d' : List Nat),
      save_loop d k s = some d' → s.length ≤ 8 * (d.length - k) := by
  induction n with
  | zero =>
    intro s hs d k d' _
    omega
  | succ n ih =>
    intro s hs d k d' h
    rcases s with _ | ⟨b0, s⟩
    · simp
    rcases s with _ | ⟨b1, s⟩
    · simp [save_loop] at h
    rcases s with _ | ⟨b2, s⟩
    · simp [save_loop] at h
    rcases s with _ | ⟨b3, s⟩
    · simp [save_loop] at h
    rcases s with _ | ⟨b4, s⟩
    · simp [save_loop] at h
    rcases s with _ | ⟨b5, s⟩
    · simp [save_loop] at h
    rcases s with _ | ⟨b6, s⟩
    · simp [save_loop] at h
    rcases s with _ | ⟨b7, s⟩
    · simp [save_loop] at h
    rw [save_loop] at h
    by_cases hk : k < d.length
    · rw [if_pos hk] at h
      have hlen : s.length ≤ n := by
        simp only [List.length_cons] at hs
        omega
      have := ih s hlen _ (k + 1) d' h
      rw [List.length_set] at this
      simp only [List.length_cons]
      omega
    · rw [if_neg hk] at h
      exact absurd h (by simp)

/-! ### C6: the bit-ordering convention of the encoder -/

theorem natBits_getD (w v j : Nat) (hj : j < w) :
    (natBits w v).getD j false = decide (v / 2 ^ (w - 1 - j) % 2 = 1) := by
  induction w generalizing v j with
  | zero => omega
  | succ w ih =>
    rw [natBits]
    by_cases hjw : j < w
    · rw [List.getD_eq_getElem?_getD, List.getElem?_append_left (by rw [natBits_length]; omega),
        ← List.getD_eq_getElem?_getD, ih (v / 2) j hjw]
      have hexp : 2 * 2 ^ (w - 1 - j) = 2 ^ (w - j) := by
        rw [← pow_succ']
        congr 1
        omega
      rw [Nat.div_div_eq_div_mul, hexp]
      have : w + 1 - 1 - j = w - j := by omega
      rw [this]
    · have hjeq : j = w := by omega
      subst hjeq
      rw [List.getD_eq_getElem?_getD, List.getElem?_append_right (by rw [natBits_length])]
      rw [natBits_length, Nat.sub_self]
      simp

theorem load_binary_stream_getD (data : List Nat) (i j : Nat) (hi : i < data.length)
    (hj : j < 8) :
    (load_binary_stream data).getD (8 * i + j) false =
      decide (data.getD (data.length - 1 - i) 0 / 2 ^ (7 - j) % 2 = 1) := by
  induction data with
  | nil => simp at hi
  | cons b rest ih =>
    rw [load_binary_stream]
    by_cases hir : i < rest.length
    · have hpos : 8 * i + j < (load_binary_stream rest).length := by
        rw [load_binary_stream_length]
        omega
      rw [List.getD_eq_getElem?_getD, List.getElem?_append_left hpos,
        ← List.getD_eq_getElem?_getD, ih hir]
      have hlen : (b :: rest).length - 1 - i = (rest.length - 1 - i) + 1 := by
        simp only [List.length_cons]
        omega
      rw [hlen, List.getD_cons_succ]
    · have hieq : i = rest.length := by
        simp only [List.length_cons] at hi
        omega
      subst hieq
      have hlen : (load_binary_stream rest).length = 8 * rest.length :=
        load_binary_stream_length rest
      rw [List.getD_eq_getElem?_getD,
        List.getElem?_append_right (by rw [hlen]; omega)]
      rw [hlen]
      have hsub : 8 * rest.length + j - 8 * rest.length = j := by omega
      rw [hsub, ← List.getD_eq_getElem?_getD, natBits_getD 8 b j hj]
      have hzero : (b :: rest).length - 1 - rest.length = 0 := by
        simp only [List.length_cons]
        omega
      rw [hzero, List.getD_cons_zero]

/-- C6: bit-ordering convention of the encoder — the logical bit sequence of
an `n`-byte range has length `8 * n`, and its bit at position `8 * i + j`
(`i < n`, `j < 8`) is bit `7 - j` (counting the least-significant bit as
bit 0, so MSB-first within the byte) of the byte at address `n - 1 - i`;
position 0 is the most-significant bit of the last byte and the final
position is the least-significant bit of the first byte. -/
theorem C6_bit_ordering (data : List Nat) (i j : Nat) (hi : i < data.length) (hj : j < 8) :
    (load_binary_stream data).length = 8 * data.length ∧
    (load_binary_stream data).getD (8 * i + j) false =
      decide (data.getD (data.length - 1 - i) 0 / 2 ^ (7 - j) % 2 = 1) :=
  ⟨load_binary_stream_length data, load_binary_stream_getD data i j hi hj⟩

theorem C6_bit_ordering_witness :
    (load_binary_stream [1, 128]).length = 8 * [1, 128].length ∧
    (load_binary_stream [1, 128]).getD (8 * 1 + 7) false =
      decide ([1, 128].getD ([1, 128].length - 1 - 1) 0 / 2 ^ (7 - 7) % 2 = 1) :=
  C6_bit_ordering [1, 128] 1 7 (by decide) (by decide)

/-! ### C5: the write-back frame property -/

theorem format_binary_length_ge (width v : Nat) : width ≤ (format_binary width v).length := by
  simp only [format_binary, List.length_append, List.length_replicate]
  omega

theorem replace_range_some {s : List Bool} {a b : Nat} {repl s' : List Bool}
    (h : replace_range s a b repl = some s') :
    a ≤ b ∧ b ≤ s.length ∧ s' = s.take a ++ repl ++ s.drop b := by
  unfold replace_range at h
  by_cases hab : a ≤ b ∧ b ≤ s.length
  · rw [if_pos hab] at h
    exact ⟨hab.1, hab.2, (Option.some_inj.mp h).symm⟩
  · rw [if_neg hab] at h
    exact absurd h (by simp)

theorem replace_range_length {s : List Bool} {a b : Nat} {repl s' : List Bool}
    (h : replace_range s a b repl = some s') :
    s'.length + (b - a) = s.length + repl.length := by
  obtain ⟨hab, hbs, rfl⟩ := replace_range_some h
  simp only [List.length_append, List.length_take, List.length_drop]
  omega

theorem replace_range_getD {s : List Bool} {a b : Nat} {repl s' : List Bool}
    (h : replace_range s a b repl = some s') (hlen : repl.length = b - a)
    (p : Nat) (hp : p < a ∨ b ≤ p) :
    s'.getD p false = s.getD p false := by
  obtain ⟨hab, hbs, rfl⟩ := replace_range_some h
  have hta : (s.take a).length = a := by
    rw [List.length_take]
    omega
  have htr : (s.take a ++ repl).length = b := by
    rw [List.length_append, hta]
    omega
  rcases hp with hp | hp
  · rw [List.getD_eq_getElem?_getD,
      List.getElem?_append_left (by rw [htr]; omega),
      List.getElem?_append_left (by rw [hta]; omega),
      List.getElem?_take_of_lt hp, ← List.getD_eq_getElem?_getD]
  · rw [List.getD_eq_getElem?_getD,
      List.getElem?_append_right (by rw [htr]; omega), htr,
      List.getElem?_drop]
    have hidx : b + (p - b) = p := by omega
    rw [hidx, ← List.getD_eq_getElem?_getD]

theorem applyStats_le (l : List StatsInfo) :
    ∀ s s' : List Bool, applyStats l s = some s' → s.length ≤ s'.length := by
  induction l with
  | nil =>
    intro s s' h
    simp only [applyStats, Option.some_inj] at h
    rw [h]
  | cons r rest ih =>
    intro s s' h
    rw [applyStats] at h
    by_cases hoff : 0 < r.offset
    · rw [if_pos hoff] at h
      cases hrr : replace_range s r.offset (r.offset + r.size) (format_binary r.size r.value) with
      | none =>
        rw [hrr] at h
        exact absurd h (by simp)
      | some s1 =>
        rw [hrr] at h
        have h1 := ih s1 s' h
        have hl := replace_range_length hrr
        have hge := format_binary_length_ge r.size r.value
        omega
    · rw [if_neg hoff] at h
      exact ih s s' h

theorem applyStats_frame (l : List StatsInfo) :
    ∀ s s' : List Bool, applyStats l s = some s' → s'.length = s.length →
      ∀ p, (∀ r ∈ l, 0 < r.offset → p < r.offset ∨ r.offset + r.size ≤ p) →
        s'.getD p false = s.getD p false := by
  induction l with
  | nil =>
    intro s s' h _ p _
    simp only [applyStats, Option.some_inj] at h
    rw [← h]
  | cons r rest ih =>
    intro s s' h hlen p hp
    rw [applyStats] at h
    by_cases hoff : 0 < r.offset
    · rw [if_pos hoff] at h
      cases hrr : replace_range s r.offset (r.offset + r.size) (format_binary r.size r.value) with
      | none =>
        rw [hrr] at h
        exact absurd h (by simp)
      | some s1 =>
        rw [hrr] at h
        have hs1 := applyStats_le rest s1 s' h
        have hl := replace_range_length hrr
        have hge := format_binary_length_ge r.size r.value
        have hrepl : (format_binary r.size r.value).length = (r.offset + r.size) - r.offset := by
          omega
        have hgd := replace_range_getD hrr hrepl p (hp r (List.mem_cons_self r rest) hoff)
        rw [ih s1 s' h (by omega) p (fun r' hr' => hp r' (List.mem_cons_of_mem _ hr'))]
        exact hgd
    · rw [if_neg hoff] at h
      exact ih s s' h hlen p (fun r' hr' => hp r' (List.mem_cons_of_mem _ hr'))

/-- C5: write-back frame property — whenever `Stats::save` completes, the
buffer keeps its length, and every bit of the logical bit sequence outside
the union of the spans `[offset, offset + size)` of records marked present
(`offset > 0`) — tag bits, padding, and the spans of records not marked
present, which are never written — is identical before and after. -/
theorem C5_save_frame (stats : List StatsInfo) (data data' : List Nat)
    (h : Stats.save stats data = some data') :
    data'.length = data.length ∧
    ∀ p, (∀ r ∈ stats, 0 < r.offset → p < r.offset ∨ r.offset + r.size ≤ p) →
      (load_binary_stream data').getD p false = (load_binary_stream data).getD p false := by
  unfold Stats.save at h
  split at h
  next stream' happ =>
    have hload : (load_binary_stream data).length = 8 * data.length :=
      load_binary_stream_length data
    have hge : (load_binary_stream data).length ≤ stream'.length := applyStats_le _ _ _ happ
    have hle : stream'.length ≤ 8 * (data.length - 0) :=
      save_loop_some_le stream'.length stream' (Nat.le_refl _) data 0 data' h
    have heq : stream'.length = 8 * data.length := by omega
    have hchunks := save_loop_eq_chunks data.length stream' data 0 heq (by omega)
    rw [save_binary_stream, hchunks] at h
    have hdata' : data' = (chunkBytes stream').reverse ++ data.drop data.length :=
      (Option.some_inj.mp h).symm
    rw [List.drop_length, List.append_nil] at hdata'
    have hload' : load_binary_stream data' = stream' := by
      rw [hdata']
      exact load_chunkBytes data.length stream' heq
    constructor
    · have hl' := load_binary_stream_length data'
      rw [hload'] at hl'
      omega
    · intro p hp
      rw [hload']
      exact applyStats_frame stats _ stream' happ (by omega) p hp
  next happ => exact absurd h (by simp)

theorem C5_save_frame_witness :
    ([231, 225] : List Nat).length = ([255, 255] : List Nat).length ∧
    (load_binary_stream [231, 225]).getD 0 false =
      (load_binary_stream [255, 255]).getD 0 false := by
  have h := C5_save_frame [⟨.Strength, 10, 3, 60⟩] [255, 255] [231, 225] (by
    simp [Stats.save, applyStats, replace_range, format_binary, binDigits, Nat.log2,
      natBits, load_binary_stream, save_binary_stream, save_loop, bitsToNat])
  exact ⟨h.1, h.2 0 (by decide)⟩

/-! ### The parse invariant -/

theorem natBits_zero_cons {w v : Nat} (h : v < 2 ^ w) :
    natBits (w + 1) v = false :: natBits w v := by
  induction w generalizing v with
  | zero =>
    rw [pow_zero] at h
    have hv : v = 0 := by omega
    subst hv
    rfl
  | succ w ih =>
    have hv : v / 2 < 2 ^ w := by
      rw [Nat.div_lt_iff_lt_mul (by omega : 0 < 2)]
      calc v < 2 ^ (w + 1) := h
        _ = 2 ^ w * 2 := pow_succ 2 w
    rw [natBits, ih hv, natBits]
    rfl

theorem natBits_pad {w k v : Nat} (hk : k ≤ w) (hv : v < 2 ^ k) :
    natBits w v = List.replicate (w - k) false ++ natBits k v := by
  induction w with
  | zero =>
    have h0 : k = 0 := by omega
    subst h0
    rfl
  | succ w ih =>
    by_cases hkw : k = w + 1
    · subst hkw
      simp [Nat.sub_self]
    · have hk' : k ≤ w := by omega
      have hvw : v < 2 ^ w := lt_of_lt_of_le hv (Nat.pow_le_pow_right (by omega) hk')
      rw [natBits_zero_cons hvw, ih hk']
      have hrep : w + 1 - k = (w - k) + 1 := by omega
      rw [hrep, List.replicate_succ]
      rfl

theorem format_binary_eq_natBits {width v : Nat} (hw : 1 ≤ width) (hv : v < 2 ^ width) :
    format_binary width v = natBits width v := by
  unfold format_binary binDigits
  rw [natBits_length]
  have hlog : Nat.log2 v + 1 ≤ width := by
    rcases Nat.eq_zero_or_pos v with h0 | h0
    · subst h0
      rw [Nat.log2_zero]
      omega
    · have := (Nat.log2_lt (by omega)).mpr hv
      omega
  exact (natBits_pad hlog Nat.lt_log2_self).symm

theorem replace_range_self {s : List Bool} {a b : Nat} (hab : a ≤ b) (hbs : b ≤ s.length) :
    replace_range s a b (streamSlice s a b) = some s := by
  unfold replace_range
  rw [if_pos ⟨hab, hbs⟩]
  congr 1
  rw [List.append_assoc]
  conv_rhs => rw [← List.take_append_drop a s]
  congr 1
  unfold streamSlice
  conv_rhs => rw [← List.take_append_drop (b - a) (s.drop a)]
  congr 1
  rw [List.drop_drop]
  congr 1
  omega

theorem streamSlice_length {s : List Bool} {a w : Nat} (h : a + w ≤ s.length) :
    (streamSlice s a (a + w)).length = w := by
  unfold streamSlice
  rw [List.length_take, List.length_drop]
  omega

theorem bitsAt_lt {stream : List Bool} {a w : Nat} (h : a + w ≤ stream.length) :
    bitsAt stream a w < 2 ^ w := by
  have hb := bitsToNat_lt (streamSlice stream a (a + w))
  rw [streamSlice_length h] at hb
  exact hb

theorem natBits_bitsAt {stream : List Bool} {a w : Nat} (h : a + w ≤ stream.length) :
    natBits w (bitsAt stream a w) = streamSlice stream a (a + w) := by
  have hb := natBits_bitsToNat (streamSlice stream a (a + w))
  rw [streamSlice_length h] at hb
  exact hb

theorem find?_updateFirst {id o v : Nat} {stats : List StatsInfo} {r : StatsInfo}
    (hf : stats.find? (fun x => statsKindId x.kind == id) = some r) :
    ∀ r' ∈ updateFirst id o v stats,
      r' ∈ stats ∨ r' = { r with value := v, offset := o } := by
  induction stats with
  | nil => simp at hf
  | cons x rest ih =>
    intro r' hr'
    rw [updateFirst] at hr'
    by_cases hx : statsKindId x.kind = id
    · rw [List.find?_cons_of_pos _ (by simp [hx])] at hf
      have hxr : x = r := Option.some_inj.mp hf
      rw [if_pos hx] at hr'
      rcases List.mem_cons.mp hr' with h | h
      · right
        rw [h, hxr]
      · exact Or.inl (List.mem_cons_of_mem _ h)
    · rw [List.find?_cons_of_neg _ (by simp [hx])] at hf
      rw [if_neg hx] at hr'
      rcases List.mem_cons.mp hr' with h | h
      · exact Or.inl (h ▸ List.mem_cons_self x rest)
      · rcases ih hf r' h with h' | h'
        · exact Or.inl (List.mem_cons_of_mem _ h')
        · exact Or.inr h'

/-- Every record a successful parse leaves behind is well-formed for the
parsed bit sequence, and keeps a positive bit-width. -/
theorem parseLoop_good (n : Nat) :
    ∀ offset, offset ≤ n → ∀ (stream : List Bool) (stats stats' : List StatsInfo),
      parseLoop stream stats offset = .ok stats' →
      offset ≤ stream.length →
      (∀ r ∈ stats, GoodRec stream r ∧ 1 ≤ r.size) →
      ∀ r ∈ stats', GoodRec stream r ∧ 1 ≤ r.size := by
  induction n with
  | zero =>
    intro offset hoff stream stats stats' hp _ hinv
    rw [parseLoop, dif_neg (by omega)] at hp
    cases hp
    exact hinv
  | succ n ih =>
    intro offset hoff stream stats stats' hp hlen hinv
    rw [parseLoop] at hp
    split at hp
    next h9 =>
      split at hp
      next hkind => exact Except.noConfusion hp
      next kind hkind =>
        split at hp
        next hfind =>
          cases hp
          exact hinv
        next r hfind =>
          have hrmem := List.mem_of_find?_eq_some hfind
          split at hp
          next hsz =>
            split at hp
            next hv =>
              have hupd : ∀ r' ∈ updateFirst (bitsAt stream (offset - 9) 9)
                  (offset - 9 - r.size) (bitsAt stream (offset - 9 - r.size) r.size) stats,
                  GoodRec stream r' ∧ 1 ≤ r'.size := by
                intro r' hr'
                rcases find?_updateFirst hfind r' hr' with hmem | heq
                · exact hinv r' hmem
                · obtain ⟨-, hrsz⟩ := hinv r hrmem
                  subst heq
                  refine ⟨?_, hrsz⟩
                  intro _
                  refine ⟨?_, ?_, ?_⟩
                  · show offset - 9 - r.size + r.size ≤ stream.length
                    omega
                  · show streamSlice stream (offset - 9 - r.size) (offset - 9 - r.size + r.size) =
                      natBits r.size (bitsAt stream (offset - 9 - r.size) r.size)
                    exact (natBits_bitsAt (by omega)).symm
                  · show bitsAt stream (offset - 9 - r.size) r.size < 2 ^ r.size
                    exact bitsAt_lt (by omega)
              split at hp
              next =>
                cases hp
                exact hupd
              next =>
                exact ih (offset - 9 - r.size) (by omega) stream _ stats' hp (by omega) hupd
            next hv => exact Except.noConfusion hp
          next hsz => exact Except.noConfusion hp
    next h9 =>
      cases hp
      exact hinv

/-- The parse invariant at the top level: `Stats::load`'s successful result
is well-formed for the block's bit sequence. -/
theorem Stats_load_good {data : List Nat} {stats' : List StatsInfo}
    (h : Stats.load data = .ok stats') :
    ∀ r ∈ stats', GoodRec (load_binary_stream data) r ∧ 1 ≤ r.size := by
  unfold Stats.load parse_stats at h
  refine parseLoop_good (load_binary_stream data).length _ (Nat.le_refl _) _ _ _ h
    (Nat.le_refl _) ?_
  intro r hr
  have hcat : r.offset = 0 ∧ 1 ≤ r.size := by
    fin_cases hr <;> exact ⟨rfl, by decide⟩
  exact ⟨fun h0 => absurd (hcat.1 ▸ h0) (lt_irrefl 0), hcat.2⟩

/-- Splicing every well-formed record back over its own span leaves the bit
sequence untouched. -/
theorem applyStats_id (stream : List Bool) :
    ∀ l : List StatsInfo, (∀ r ∈ l, GoodRec stream r ∧ 1 ≤ r.size) →
      applyStats l stream = some stream := by
  intro l
  induction l with
  | nil => intro _; rfl
  | cons r rest ih =>
    intro hinv
    rw [applyStats]
    by_cases hoff : 0 < r.offset
    · rw [if_pos hoff]
      obtain ⟨hgood, hsz⟩ := hinv r (List.mem_cons_self r rest)
      obtain ⟨hb, hslice, hlt⟩ := hgood hoff
      have hfb : format_binary r.size r.value = natBits r.size r.value :=
        format_binary_eq_natBits hsz hlt
      have hrr : replace_range stream r.offset (r.offset + r.size)
          (format_binary r.size r.value) = some stream := by
        rw [hfb, ← hslice]
        exact replace_range_self (by omega) hb
      rw [hrr]
      exact ih (fun r' h' => hinv r' (List.mem_cons_of_mem _ h'))
    · rw [if_neg hoff]
      exact ih (fun r' h' => hinv r' (List.mem_cons_of_mem _ h'))

/-- C2: parse/write idempotence — for every block that `Stats::load` parses
successfully, `Stats::save` on the resulting records (no field changed)
reproduces the block bytes exactly, so re-parsing the written bytes yields
the identical record list: every attribute kind keeps the same value and the
same bit-offset as after the first parse. -/
theorem C2_parse_save_reparse (data : List Nat) (stats' : List StatsInfo)
    (hb : ∀ b ∈ data, b < 256) (h : Stats.load data = .ok stats') :
    ∃ data', Stats.save stats' data = some data' ∧ data' = data ∧
      Stats.load data' = .ok stats' := by
  have hinv := Stats_load_good h
  have happ : applyStats stats' (load_binary_stream data) = some (load_binary_stream data) :=
    applyStats_id _ _ hinv
  have hsave : Stats.save stats' data = some data := by
    unfold Stats.save
    rw [happ]
    show save_binary_stream data (load_binary_stream data) = some data
    have hrt := save_loop_load data hb data.length 0 (by omega)
    rw [List.take_length] at hrt
    exact hrt
  exact ⟨data, hsave, rfl, h⟩

/-- Evaluation of the parse on the 5-byte example block whose 40-bit sequence
carries a single `GoldStash` field: tag id 15 at bits `[31, 40)`, value 0 at
bits `[6, 31)`. -/
theorem load_example_eq :
    Stats.load [15, 0, 0, 0, 0] =
      .ok [⟨.Strength, 10, 0, 0⟩, ⟨.Energy, 10, 0, 0⟩, ⟨.Dexterity, 10, 0, 0⟩,
        ⟨.Vitality, 10, 0, 0⟩, ⟨.NewPoints, 10, 0, 0⟩, ⟨.NewSkills, 8, 0, 0⟩,
        ⟨.HitPoints, 21, 0, 0⟩, ⟨.MaxHealth, 21, 0, 0⟩, ⟨.Mana, 21, 0, 0⟩,
        ⟨.MaxMana, 21, 0, 0⟩, ⟨.Stamina, 21, 0, 0⟩, ⟨.MaxStamina, 21, 0, 0⟩,
        ⟨.Level, 7, 0, 0⟩, ⟨.Experience, 32, 0, 0⟩, ⟨.Gold, 25, 0, 0⟩,
        ⟨.GoldStash, 25, 6, 0⟩] := by
  simp [Stats.load, parse_stats, parseLoop, load_binary_stream, natBits, bitsToNat,
    streamSlice, bitsAt, kindOfId, stats_info, updateFirst, statsKindId]

theorem C2_parse_save_reparse_witness :
    ∃ data', Stats.save [⟨.Strength, 10, 0, 0⟩, ⟨.Energy, 10, 0, 0⟩, ⟨.Dexterity, 10, 0, 0⟩,
        ⟨.Vitality, 10, 0, 0⟩, ⟨.NewPoints, 10, 0, 0⟩, ⟨.NewSkills, 8, 0, 0⟩,
        ⟨.HitPoints, 21, 0, 0⟩, ⟨.MaxHealth, 21, 0, 0⟩, ⟨.Mana, 21, 0, 0⟩,
        ⟨.MaxMana, 21, 0, 0⟩, ⟨.Stamina, 21, 0, 0⟩, ⟨.MaxStamina, 21, 0, 0⟩,
        ⟨.Level, 7, 0, 0⟩, ⟨.Experience, 32, 0, 0⟩, ⟨.Gold, 25, 0, 0⟩,
        ⟨.GoldStash, 25, 6, 0⟩] [15, 0, 0, 0, 0] = some data' ∧
      data' = [15, 0, 0, 0, 0] ∧
      Stats.load data' =
        .ok [⟨.Strength, 10, 0, 0⟩, ⟨.Energy, 10, 0, 0⟩, ⟨.Dexterity, 10, 0, 0⟩,
          ⟨.Vitality, 10, 0, 0⟩, ⟨.NewPoints, 10, 0, 0⟩, ⟨.NewSkills, 8, 0, 0⟩,
          ⟨.HitPoints, 21, 0, 0⟩, ⟨.MaxHealth, 21, 0, 0⟩, ⟨.Mana, 21, 0, 0⟩,
          ⟨.MaxMana, 21, 0, 0⟩, ⟨.Stamina, 21, 0, 0⟩, ⟨.MaxStamina, 21, 0, 0⟩,
          ⟨.Level, 7, 0, 0⟩, ⟨.Experience, 32, 0, 0⟩, ⟨.Gold, 25, 0, 0⟩,
          ⟨.GoldStash, 25, 6, 0⟩] :=
  C2_parse_save_reparse [15, 0, 0, 0, 0] _ (by decide) load_example_eq

/-- C9 (amended): after a successful parse every record marked present
satisfies `value < 2 ^ size`; `Stats::set` itself performs no validation (see
the counterexample), so the bound is guaranteed after parse, not across
`set`. -/
theorem C9_parse_value_bound {data : List Nat} {stats' : List StatsInfo}
    (h : Stats.load data = .ok stats') :
    ∀ r ∈ stats', 0 < r.offset → r.value < 2 ^ r.size := by
  intro r hr hoff
  exact ((Stats_load_good h r hr).1 hoff).2.2

theorem C9_parse_value_bound_witness :
    (⟨.GoldStash, 25, 6, 0⟩ : StatsInfo).value < 2 ^ (⟨.GoldStash, 25, 6, 0⟩ : StatsInfo).size :=
  C9_parse_value_bound load_example_eq ⟨.GoldStash, 25, 6, 0⟩ (by decide) (by decide)

/-- C9, counterexample to the claim as stated: `Stats::set` neither rejects
nor truncates an oversized value — setting `GoldStash` (width 25) to `2^25`
on a freshly parsed block stores the value verbatim, so a present record
violates `value < 2 ^ width` while write-back would run next. -/
theorem C9_set_no_validation_counterexample :
    ∃ stats' stats'', Stats.load [15, 0, 0, 0, 0] = .ok stats' ∧
      Stats.set stats' StatsKind.GoldStash (2 ^ 25) = some stats'' ∧
      ∃ r ∈ stats'', 0 < r.offset ∧ ¬ r.value < 2 ^ r.size := by
  refine ⟨_, [⟨.Strength, 10, 0, 0⟩, ⟨.Energy, 10, 0, 0⟩, ⟨.Dexterity, 10, 0, 0⟩,
      ⟨.Vitality, 10, 0, 0⟩, ⟨.NewPoints, 10, 0, 0⟩, ⟨.NewSkills, 8, 0, 0⟩,
      ⟨.HitPoints, 21, 0, 0⟩, ⟨.MaxHealth, 21, 0, 0⟩, ⟨.Mana, 21, 0, 0⟩,
      ⟨.MaxMana, 21, 0, 0⟩, ⟨.Stamina, 21, 0, 0⟩, ⟨.MaxStamina, 21, 0, 0⟩,
      ⟨.Level, 7, 0, 0⟩, ⟨.Experience, 32, 0, 0⟩, ⟨.Gold, 25, 0, 0⟩,
      ⟨.GoldStash, 25, 6, 2 ^ 25⟩], load_example_eq, by decide, ?_⟩
  exact ⟨⟨.GoldStash, 25, 6, 2 ^ 25⟩, by decide, by decide, by decide⟩

/-! ### C3/C4: one scan step of `parse_stats` -/

/-- C3: terminal-kind sentinel — the scan halts as soon as fewer than 9 bits
remain before the cursor; a step whose tag decodes to `GoldStash` records the
field's value and returns at once, whatever the cursor position `offset2 =
offset - 9 - size` still leaves (the result reads nothing below `offset2`,
as its expression shows); a step whose tag decodes to any other catalog kind
updates the record and repeats the scan at `offset2`. -/
theorem C3_terminal_sentinel (stream : List Bool) (stats : List StatsInfo) (offset : Nat) :
    (offset < 9 → parseLoop stream stats offset = .ok stats) ∧
    (∀ r, 9 ≤ offset →
      kindOfId (bitsAt stream (offset - 9) 9) = some StatsKind.GoldStash →
      stats.find? (fun x => statsKindId x.kind == bitsAt stream (offset - 9) 9) = some r →
      r.size ≤ offset - 9 →
      bitsAt stream (offset - 9 - r.size) r.size < 2 ^ 32 →
      parseLoop stream stats offset =
        .ok (updateFirst (bitsAt stream (offset - 9) 9) (offset - 9 - r.size)
          (bitsAt stream (offset - 9 - r.size) r.size) stats)) ∧
    (∀ r kind, 9 ≤ offset →
      kindOfId (bitsAt stream (offset - 9) 9) = some kind →
      kind ≠ StatsKind.GoldStash →
      stats.find? (fun x => statsKindId x.kind == bitsAt stream (offset - 9) 9) = some r →
      r.size ≤ offset - 9 →
      bitsAt stream (offset - 9 - r.size) r.size < 2 ^ 32 →
      parseLoop stream stats offset =
        parseLoop stream
          (updateFirst (bitsAt stream (offset - 9) 9) (offset - 9 - r.size)
            (bitsAt stream (offset - 9 - r.size) r.size) stats)
          (offset - 9 - r.size)) := by
  refine ⟨?_, ?_, ?_⟩
  · intro hlt
    rw [parseLoop, dif_neg (by omega)]
  · intro r h9 hkind hfind hsz hv
    rw [parseLoop, dif_pos h9]
    simp only [hkind, hfind]
    rw [if_pos hsz, if_pos hv]
    simp
  · intro r kind h9 hkind hne hfind hsz hv
    rw [parseLoop, dif_pos h9]
    simp only [hkind, hfind]
    rw [if_pos hsz, if_pos hv, if_neg hne]

theorem C3_terminal_sentinel_witness :
    parseLoop (load_binary_stream [15, 0, 0, 0, 0]) stats_info 40 =
      .ok (updateFirst (bitsAt (load_binary_stream [15, 0, 0, 0, 0]) (40 - 9) 9)
        (40 - 9 - (⟨.GoldStash, 25, 0, 0⟩ : StatsInfo).size)
        (bitsAt (load_binary_stream [15, 0, 0, 0, 0])
          (40 - 9 - (⟨.GoldStash, 25, 0, 0⟩ : StatsInfo).size)
          (⟨.GoldStash, 25, 0, 0⟩ : StatsInfo).size)
        stats_info) :=
  (C3_terminal_sentinel (load_binary_stream [15, 0, 0, 0, 0]) stats_info 40).2.1
    ⟨.GoldStash, 25, 0, 0⟩ (by omega) (by decide) (by decide) (by decide) (by decide)

/-- C4: unknown-tag failure — whenever the scan reads a 9-bit tag id that no
`StatsKind` carries, the whole parse returns the fatal error for that id, so
no record list (`.ok` value) is produced. -/
theorem C4_unknown_tag (stream : List Bool) (stats : List StatsInfo) (offset : Nat)
    (h9 : 9 ≤ offset)
    (hk : kindOfId (bitsAt stream (offset - 9) 9) = none) :
    parseLoop stream stats offset = .error (.unknownId (bitsAt stream (offset - 9) 9)) ∧
    ∀ stats', parseLoop stream stats offset ≠ .ok stats' := by
  have heq : parseLoop stream stats offset =
      .error (.unknownId (bitsAt stream (offset - 9) 9)) := by
    rw [parseLoop, dif_pos h9]
    simp only [hk]
  exact ⟨heq, fun stats' hok => Except.noConfusion (heq ▸ hok)⟩

theorem C4_unknown_tag_witness :
    parseLoop (load_binary_stream [16, 0]) stats_info 16 =
      .error (.unknownId (bitsAt (load_binary_stream [16, 0]) (16 - 9) 9)) ∧
    ∀ stats', parseLoop (load_binary_stream [16, 0]) stats_info 16 ≠ .ok stats' :=
  C4_unknown_tag (load_binary_stream [16, 0]) stats_info 16 (by omega) (by decide)

/-! ### C7: the whole-file checksum -/

/-- Writing a zero `u32` over the checksum field at offset 12 equals zeroing
the four bytes at offsets 12–15. -/
theorem set_checksum_zero {data : List Nat} (h : 16 ≤ data.length) :
    D2SaveFile.set data 12 0 = some (data.take 12 ++ [0, 0, 0, 0] ++ data.drop 16) := by
  unfold D2SaveFile.set
  rw [if_pos (by omega)]
  simp only [Nat.zero_mod, Nat.zero_div]
  congr 1
  apply List.ext_getElem?
  intro j
  have hta : (data.take 12).length = 12 := by
    rw [List.length_take]
    omega
  have htb : (data.take 12 ++ [0, 0, 0, 0]).length = 16 := by
    rw [List.length_append, hta]
    rfl
  by_cases h12 : j < 12
  · rw [List.getElem?_append_left (by rw [htb]; omega),
      List.getElem?_append_left (by rw [hta]; omega),
      List.getElem?_take_of_lt h12,
      List.getElem?_set_ne (by omega), List.getElem?_set_ne (by omega),
      List.getElem?_set_ne (by omega), List.getElem?_set_ne (by omega)]
  · by_cases h16 : j < 16
    · rw [List.getElem?_append_left (by rw [htb]; omega),
        List.getElem?_append_right (by rw [hta]; omega), hta]
      have hj4 : j = 12 ∨ j = 13 ∨ j = 14 ∨ j = 15 := by omega
      rcases hj4 with hj | hj | hj | hj <;> subst hj
      · rw [List.getElem?_set_ne (by omega), List.getElem?_set_ne (by omega),
          List.getElem?_set_ne (by omega),
          List.getElem?_set_self (by omega)]
        rfl
      · rw [List.getElem?_set_ne (by omega), List.getElem?_set_ne (by omega),
          List.getElem?_set_self (by simp only [List.length_set]; omega)]
        rfl
      · rw [List.getElem?_set_ne (by omega),
          List.getElem?_set_self (by simp only [List.length_set]; omega)]
        rfl
      · rw [List.getElem?_set_self (by simp only [List.length_set]; omega)]
        rfl
    · rw [List.getElem?_append_right (by rw [htb]; omega), htb, List.getElem?_drop]
      have hidx : 16 + (j - 16) = j := by omega
      rw [hidx,
        List.getElem?_set_ne (by omega), List.getElem?_set_ne (by omega),
        List.getElem?_set_ne (by omega), List.getElem?_set_ne (by omega)]

/-- C7: checksum algorithm — for every buffer at least 16 bytes long (every
loaded save file is), `file_checksum` equals the specification's fold: over a
copy of the buffer with the 4-byte checksum field at offset 12 zeroed, the
32-bit accumulator is seeded with the first byte unrotated and, for each
subsequent byte in address order, rotated left by one bit and then the byte
added, modulo `2^32`; the input buffer itself is untouched (the model is a
pure function of it). -/
theorem C7_file_checksum (data : List Nat) (h : 16 ≤ data.length) :
    D2SaveFile.file_checksum data = some (spec_checksum data) := by
  have hz := set_checksum_zero h
  obtain ⟨x, xs, hx⟩ : ∃ x xs, data.take 12 ++ [0, 0, 0, 0] ++ data.drop 16 = x :: xs := by
    cases hc : data.take 12 ++ [0, 0, 0, 0] ++ data.drop 16 with
    | nil =>
      have := congrArg List.length hc
      simp only [List.length_append, List.length_take, List.length_drop,
        List.length_cons, List.length_nil] at this
      omega
    | cons x xs => exact ⟨x, xs, rfl⟩
  unfold D2SaveFile.file_checksum FileOffset.Checksum
  rw [hz, hx]
  unfold spec_checksum
  rw [hx]
  rfl

theorem C7_file_checksum_witness :
    D2SaveFile.file_checksum
        [1, 2, 3, 4, 5, 6, 7, 8, 9, 10, 11, 12, 13, 14, 15, 16, 17] =
      some (spec_checksum [1, 2, 3, 4, 5, 6, 7, 8, 9, 10, 11, 12, 13, 14, 15, 16, 17]) :=
  C7_file_checksum [1, 2, 3, 4, 5, 6, 7, 8, 9, 10, 11, 12, 13, 14, 15, 16, 17] (by decide)

/-! ### C8/C10: the section locator -/

/-- One in-range pass of the scan: both byte reads succeed, and the loop
either stops on the marker or advances one byte. -/
theorem skillsLoop_step {data : List Nat} {start : Nat} (hc : start + 2 ≤ data.length) :
    skillsLoop data start =
      if markerAt data start then .ok (some start) else skillsLoop data (start + 1) := by
  have hg1 : data.getD start 0 = data[start] := by
    rw [List.getD_eq_getElem?_getD,
      List.getElem?_eq_getElem (by omega : start < data.length)]
    rfl
  have hg2 : data.getD (start + 1) 0 = data[start + 1] := by
    rw [List.getD_eq_getElem?_getD,
      List.getElem?_eq_getElem (by omega : start + 1 < data.length)]
    rfl
  rw [skillsLoop, dif_pos hc]
  rw [List.getElem?_eq_getElem (by omega : start < data.length),
    List.getElem?_eq_getElem (by omega : start + 1 < data.length)]
  by_cases hm : markerAt data start
  · rw [if_pos hm]
    obtain ⟨h1, h2⟩ := hm
    rw [hg1] at h1
    rw [hg2] at h2
    show (if data[start] = 0x69 ∧ data[start + 1] = 0x66 then Except.ok (some start)
      else skillsLoop data (start + 1)) = Except.ok (some start)
    rw [if_pos ⟨h1, h2⟩]
  · rw [if_neg hm]
    show (if data[start] = 0x69 ∧ data[start + 1] = 0x66 then Except.ok (some start)
      else skillsLoop data (start + 1)) = skillsLoop data (start + 1)
    rw [if_neg (fun hmm => hm ⟨hg1 ▸ hmm.1, hg2 ▸ hmm.2⟩)]

/-- Past the in-range region the scan reports not-found. -/
theorem skillsLoop_stop {data : List Nat} {start : Nat} (hc : ¬(start + 2 ≤ data.length)) :
    skillsLoop data start = .ok none := by
  rw [skillsLoop, dif_neg hc]

/-- Once entered with any cursor, the marker scan never indexes out of
bounds: it always returns a value. -/
theorem skillsLoop_ok (n : Nat) :
    ∀ (data : List Nat) (start : Nat), data.length - start ≤ n →
      exists r, skillsLoop data start = .ok r := by
  induction n with
  | zero =>
    intro data start hle
    rw [skillsLoop_stop (by omega)]
    exact (Exists.intro none rfl)
  | succ n ih =>
    intro data start hle
    by_cases hc : start + 2 ≤ data.length
    · rw [skillsLoop_step hc]
      by_cases hm : markerAt data start
      · rw [if_pos hm]
        exact (Exists.intro (some start) rfl)
      · rw [if_neg hm]
        exact ih data (start + 1) (by omega)
    · rw [skillsLoop_stop hc]
      exact (Exists.intro none rfl)

/-- A `some` answer of the scan really points at an in-range marker at or
after the cursor. -/
theorem skillsLoop_some (n : Nat) :
    ∀ (data : List Nat) (start i : Nat), data.length - start ≤ n →
      skillsLoop data start = .ok (some i) →
      start ≤ i /\ i + 2 ≤ data.length /\ markerAt data i := by
  induction n with
  | zero =>
    intro data start i hle h
    rw [skillsLoop_stop (by omega)] at h
    simp at h
  | succ n ih =>
    intro data start i hle h
    by_cases hc : start + 2 ≤ data.length
    · rw [skillsLoop_step hc] at h
      by_cases hm : markerAt data start
      · rw [if_pos hm] at h
        have hi : i = start := by
          cases h
          rfl
        subst hi
        exact ⟨Nat.le_refl _, hc, hm⟩
      · rw [if_neg hm] at h
        have hrec := ih data (start + 1) i (by omega) h
        exact ⟨by omega, hrec.2⟩
    · rw [skillsLoop_stop hc] at h
      simp at h

/-- The scan returns the first marker position at or after the cursor. -/
theorem skillsLoop_finds_first (n : Nat) :
    ∀ (data : List Nat) (start i : Nat), i - start ≤ n →
      start ≤ i → i + 2 ≤ data.length → markerAt data i →
      (∀ j, start ≤ j → j < i → ¬ markerAt data j) →
      skillsLoop data start = .ok (some i) := by
  induction n with
  | zero =>
    intro data start i hle hsi hilen hm _
    have hi : i = start := by omega
    subst hi
    rw [skillsLoop_step (by omega), if_pos hm]
  | succ n ih =>
    intro data start i hle hsi hilen hm hnone
    by_cases hstart : start = i
    · subst hstart
      rw [skillsLoop_step (by omega), if_pos hm]
    · rw [skillsLoop_step (by omega),
        if_neg (hnone start (Nat.le_refl _) (by omega))]
      exact ih data (start + 1) i (by omega) (by omega) hilen hm
        (fun j hj1 hj2 => hnone j (by omega) hj2)

/-- When no in-range position at or after the cursor carries the marker, the
scan runs off the end and reports not-found. -/
theorem skillsLoop_none (n : Nat) :
    ∀ (data : List Nat) (start : Nat), data.length - start ≤ n →
      (∀ j, start ≤ j → j + 2 ≤ data.length → ¬ markerAt data j) →
      skillsLoop data start = .ok none := by
  induction n with
  | zero =>
    intro data start hle _
    rw [skillsLoop_stop (by omega)]
  | succ n ih =>
    intro data start hle hnone
    by_cases hc : start + 2 ≤ data.length
    · rw [skillsLoop_step hc, if_neg (hnone start (Nat.le_refl _) hc)]
      exact ih data (start + 1) (by omega) (fun j hj1 hj2 => hnone j (by omega) hj2)
    · rw [skillsLoop_stop hc]

/-- C10: totality of the marker scan at the load boundary — the scan itself
(whatever the buffer and cursor) terminates without any out-of-bounds read,
returning not-found or a genuine in-range marker offset; but for a buffer of
length 0 or 1 the subtraction `data.len() - 2` underflows before the scan is
safe, so `D2SaveFile::load` aborts instead of returning the graceful
not-found format error. -/
theorem C10_locator_safety (data : List Nat) :
    (∀ start, ∃ r, skillsLoop data start = .ok r) ∧
    (∀ start i, skillsLoop data start = .ok (some i) →
      start ≤ i ∧ i + 2 ≤ data.length ∧ markerAt data i) ∧
    (data.length < 2 → D2SaveFile.load data = .error LoadError.aborted) := by
  refine ⟨?_, ?_, ?_⟩
  · intro start
    exact skillsLoop_ok (data.length - start) data start (Nat.le_refl _)
  · intro start i h
    exact skillsLoop_some (data.length - start) data start i (Nat.le_refl _) h
  · intro h2
    unfold D2SaveFile.load D2SaveFile.skills_offset
    rw [if_pos h2]

theorem C10_locator_safety_witness :
    (∃ r, skillsLoop [7, 7] 767 = .ok r) ∧
    D2SaveFile.load [] = .error LoadError.aborted :=
  ⟨(C10_locator_safety [7, 7]).1 767, (C10_locator_safety []).2.2 (by decide)⟩

/-- C8 (amended): section-locator correctness for buffers of length at least
2 — the scan starts at the fixed offset 767 and returns the smallest offset
`i ≥ 767` whose two bytes are `0x69 0x66`; when no such marker exists before
the buffer ends, loading fails with the graceful format error.  (For a
buffer of length 0 or 1 the locator aborts instead — see the
counterexample and C10.) -/
theorem C8_section_locator (data : List Nat) :
    (∀ i, 767 ≤ i → i + 2 ≤ data.length → markerAt data i →
      (∀ j, j < i → 767 ≤ j → ¬ markerAt data j) →
      D2SaveFile.skills_offset data = .ok (some i)) ∧
    (2 ≤ data.length → (∀ j, j < data.length → 767 ≤ j → ¬ markerAt data j) →
      D2SaveFile.load data = .error LoadError.formatError) := by
  constructor
  · intro i hi hilen hm hnone
    unfold D2SaveFile.skills_offset FileOffset.CharacterStats
    rw [if_neg (by omega)]
    exact skillsLoop_finds_first (i - 767) data 767 i (Nat.le_refl _) hi hilen hm
      (fun j hj1 hj2 => hnone j hj2 hj1)
  · intro h2 hnone
    have hso : D2SaveFile.skills_offset data = .ok none := by
      unfold D2SaveFile.skills_offset FileOffset.CharacterStats
      rw [if_neg (by omega)]
      exact skillsLoop_none (data.length - 767) data 767 (Nat.le_refl _)
        (fun j hj1 hj2 => hnone j (by omega) hj1)
    unfold D2SaveFile.load
    rw [hso]

/-- C8, counterexample to the claim as stated over *every* buffer: on the
empty buffer no marker exists, yet loading does not fail with the format
error — the locator's `data.len() - 2` underflow aborts the process
instead. -/
theorem C8_empty_buffer_counterexample :
    D2SaveFile.load [] = .error LoadError.aborted ∧
    D2SaveFile.load [] ≠ .error LoadError.formatError := by
  constructor
  · rfl
  · intro hcontra
    have h1 : D2SaveFile.load [] = Except.error LoadError.aborted := rfl
    rw [h1] at hcontra
    injection hcontra with h2
    exact LoadError.noConfusion h2

theorem C8_section_locator_witness :
    D2SaveFile.load [0, 0] = .error LoadError.formatError :=
  (C8_section_locator [0, 0]).2 (by decide) (by decide)

end D2S
